import Mathlib

set_option autoImplicit false

/-!
Verification of the autoscribe changelog-generation pipeline.

The development shallowly embeds the core of the repository:
`autoscribe/core/git.py` (conventional-commit parsing, git-log splitting),
`autoscribe/core/changelog.py` (categorization, version assembly, rendering),
`autoscribe/models/changelog.py` (document model) and
`autoscribe/services/openai.py` (AI enhancement, modelled with an explicit
response oracle for the network calls).

Python strings are embedded as `List Char`; Python `dict` values keyed by
category name are embedded as ordered association lists with Python's
insertion-order semantics; code that can raise (`KeyError`, `ValueError`)
returns `Except Unit`.
-/

namespace Autoscribe

/-- Characters of a Python string. -/
abbrev Str := List Char

/-! ## Data model (`autoscribe/models/changelog.py`) -/

/-- `Change` (pydantic model): a single change entry. -/
structure Change where
  description : Str
  commit_hash : Str
  commit_message : Str
  author : Str
  type : Str
  scope : Option Str
  breaking : Bool
  ai_enhanced : Bool
  references : List Str
deriving DecidableEq, Repr, Inhabited

/-- `Category` (pydantic model): a named group of changes.  The `Literal`
constraint on the name is not modelled; the claims quantify over names. -/
structure Category where
  name : Str
  changes : List Change
deriving DecidableEq, Repr, Inhabited

/-- `Version` (pydantic model).  `date` is embedded as the string produced by
`date.strftime` since only its rendering is observable in the core. -/
structure Version where
  number : Str
  date : Str
  categories : List Category
  summary : Option Str
  breaking_changes : Bool
  yanked : Bool
  compare_url : Option Str
deriving DecidableEq, Repr, Inhabited

/-- `Changelog` (document model).  The boilerplate `title`/`description`
fields and the `last_updated` timestamp are not modelled: no claim observes
them. -/
structure Changelog where
  versions : List Version
deriving DecidableEq, Repr, Inhabited

/-- `GitCommit` (dataclass in `core/git.py`).  The `date` field keeps the raw
ISO string; `datetime.fromisoformat` is not modelled (no claim observes it). -/
structure GitCommit where
  hash : Str
  message : Str
  author : Str
  date : Str
deriving DecidableEq, Repr, Inhabited

/-! ## Commit parser (`GitService.parse_conventional_commit`) -/

/-- The keys of `GitService.CONVENTIONAL_TYPES`, in source order (the order of
alternation in the regex). -/
def CONVENTIONAL_TYPES : List Str :=
  [("feat").data, ("fix").data, ("docs").data, ("style").data,
   ("refactor").data, ("perf").data, ("test").data, ("build").data,
   ("ci").data, ("chore").data, ("revert").data]

/-- The `(?P<type>feat|fix|...)` alternation at the start of the regex: the
first recognized type that is a literal prefix of the message, together with
the rest of the message.  (No recognized type is a prefix of another one, so
at most one alternative can apply at the anchored position; regex alternation
order is therefore irrelevant and the match is deterministic.) -/
def findType (s : Str) : Option (Str × Str) :=
  (CONVENTIONAL_TYPES.find? (fun t => t.isPrefixOf s)).map
    (fun t => (t, s.drop t.length))

/-- The optional `(?:\((?P<scope>[^)]+)\))?` group: a parenthesized nonempty
run of non-`)` characters.  When the group cannot match, the regex engine
proceeds without it (and the subsequent bang/colon literals then fail on
the `(` character, exactly as in the backtracking engine). -/
def parseScopePart (s : Str) : Option Str × Str :=
  match s with
  | '(' :: rest =>
    match rest.dropWhile (fun c => c != ')') with
    | ')' :: rest2 =>
      if (rest.takeWhile (fun c => c != ')')).isEmpty then (none, s)
      else (some (rest.takeWhile (fun c => c != ')')), rest2)
    | _ => (none, s)
  | _ => (none, s)

/-- The optional `(?P<breaking>!)?` group. -/
def parseBang (s : Str) : Bool × Str :=
  match s with
  | '!' :: rest => (true, rest)
  | _ => (false, s)

/-- The trailing `(?:\n\n(?P<body>.+))?$` part of the regex (with `re.DOTALL`,
so `.` matches newlines and `$` matches at the end of the string or just
before a final newline): the remainder after the description must be empty, a
single final newline, or a blank-line separator followed by a nonempty body
(which greedy `.+` captures whole). -/
def parseTail (s : Str) : Option (Option Str) :=
  match s with
  | [] => some none
  | ['\n'] => some none
  | '\n' :: '\n' :: body => if body.isEmpty then none else some (some body)
  | _ => none

/-- The full anchored regex match of `parse_conventional_commit`: returns
`(type, scope, bang, description, body)` on success. -/
def matchConventionalCommit (s : Str) :
    Option (Str × Option Str × Bool × Str × Option Str) :=
  match findType s with
  | none => none
  | some (t, r1) =>
    match (parseBang (parseScopePart r1).2).2 with
    | ':' :: ' ' :: r4 =>
      if (r4.takeWhile (fun c => c != '\n')).isEmpty then none
      else
        match parseTail (r4.dropWhile (fun c => c != '\n')) with
        | none => none
        | some body =>
          some (t, (parseScopePart r1).1, (parseBang (parseScopePart r1).2).1,
            r4.takeWhile (fun c => c != '\n'), body)
    | _ => none

/-- Python's substring test `pat in hay`. -/
def strContains : Str → Str → Bool
  | [], pat => pat.isEmpty
  | c :: t, pat => pat.isPrefixOf (c :: t) || strContains t pat

/-- `GitService.parse_conventional_commit`: parse a commit message into
`(type, scope, description, breaking)`; on no match fall back to
`("other", None, message, False)`.  Breaking is the header `!` flag OR-ed with
the `BREAKING CHANGE:` marker check on the body. -/
def parse_conventional_commit (message : Str) :
    Str × Option Str × Str × Bool :=
  match matchConventionalCommit message with
  | none => (("other").data, none, message, false)
  | some (t, sc, bang, desc, body) =>
    let breaking := bang ||
      (match body with
       | some b => strContains b (("BREAKING CHANGE:").data)
       | none => false)
    (t, sc, desc, breaking)

/-- `GitService.create_change_from_commit`. -/
def create_change_from_commit (commit : GitCommit) : Change :=
  let r := parse_conventional_commit commit.message
  { description := r.2.2.1
    commit_hash := commit.hash
    commit_message := commit.message
    author := commit.author
    type := r.1
    scope := r.2.1
    breaking := r.2.2.2
    ai_enhanced := false
    references := [] }

/-! ## Classifier and categorization (`ChangelogService`) -/

/-- `ChangelogService.TYPE_TO_CATEGORY`, in source order. -/
def TYPE_TO_CATEGORY : List (Str × Str) :=
  [(("feat").data, ("Added").data), (("feature").data, ("Added").data),
   (("change").data, ("Changed").data), (("refactor").data, ("Changed").data),
   (("perf").data, ("Changed").data), (("style").data, ("Changed").data),
   (("deprecate").data, ("Deprecated").data),
   (("remove").data, ("Removed").data),
   (("fix").data, ("Fixed").data), (("bugfix").data, ("Fixed").data),
   (("security").data, ("Security").data),
   (("docs").data, ("Documentation").data),
   (("test").data, ("Testing").data),
   (("build").data, ("Build").data),
   (("ci").data, ("CI").data),
   (("chore").data, ("Changed").data), (("revert").data, ("Changed").data)]

/-- `self.TYPE_TO_CATEGORY.get(change.type, "Changed")`. -/
def typeToCategory (t : Str) : Str :=
  match TYPE_TO_CATEGORY.lookup t with
  | some c => c
  | none => ("Changed").data

/-- One step of Python's first-occurrence-wins dict-key insertion. -/
def insertKey (ks : List Str) (k : Str) : List Str :=
  if ks.contains k then ks else ks ++ [k]

/-- The key sequence of the dict comprehension
`{cat: [] for cat in self.config.categories}`: the configured categories with
later duplicate occurrences dropped (Python dict keys are unique and keep
their first insertion position). -/
def pyKeys (cats : List Str) : List Str :=
  cats.foldl insertKey []

/-- The dict `{cat: [] for cat in self.config.categories}` as an ordered
association list. -/
def initCategories (cats : List Str) : List (Str × List Change) :=
  (pyKeys cats).map (fun k => (k, ([] : List Change)))

/-- Python's `category in categories` membership test on the dict. -/
def containsKey (d : List (Str × List Change)) (k : Str) : Bool :=
  d.any (fun kv => kv.1 == k)

/-- Python's `categories[category].append(change)` on a present key. -/
def dictAppend (d : List (Str × List Change)) (k : Str) (c : Change) :
    List (Str × List Change) :=
  d.map (fun kv => if kv.1 == k then (kv.1, kv.2 ++ [c]) else kv)

/-- The body of the `for change in changes` loop of
`ChangelogService._categorize_changes`: a breaking change is appended to
`categories["Changed"]` with no membership check (a `KeyError`, modelled as
`Except.error`, when `"Changed"` is not a key); a non-breaking change is
appended to its mapped category only if that category is a key, and is
silently dropped otherwise. -/
def categorizeStep (d : List (Str × List Change)) (c : Change) :
    Except Unit (List (Str × List Change)) :=
  if c.breaking then
    if containsKey d (("Changed").data) then
      Except.ok (dictAppend d (("Changed").data) c)
    else Except.error ()
  else
    let cat := typeToCategory c.type
    if containsKey d cat then Except.ok (dictAppend d cat c) else Except.ok d

/-- The `for change in changes` loop itself: run `categorizeStep` over the
changes in order, propagating a raised `KeyError`. -/
def categorizeLoop (d : List (Str × List Change)) :
    List Change → Except Unit (List (Str × List Change))
  | [] => Except.ok d
  | c :: cs =>
    match categorizeStep d c with
    | Except.ok d2 => categorizeLoop d2 cs
    | Except.error e => Except.error e

/-- `ChangelogService._categorize_changes`: build the category dict, run the
loop, and keep only the nonempty buckets (`{k: v for k, v in ... if v}`). -/
def _categorize_changes (cats : List Str) (changes : List Change) :
    Except Unit (List (Str × List Change)) :=
  match categorizeLoop (initCategories cats) changes with
  | Except.ok d => Except.ok (d.filter (fun kv => !kv.2.isEmpty))
  | Except.error e => Except.error e

/-- The category a change resolves to: the breaking override first, then the
type mapping with its `"Changed"` default. -/
def resolvedCategory (c : Change) : Str :=
  if c.breaking then ("Changed").data else typeToCategory c.type

/-! ### Characterization of the categorization loop -/

theorem containsKey_dictAppend (d : List (Str × List Change)) (k k' : Str)
    (c : Change) : containsKey (dictAppend d k c) k' = containsKey d k' := by
  unfold containsKey dictAppend
  rw [List.any_map]
  congr 1
  funext kv
  obtain ⟨k1, v1⟩ := kv
  by_cases h : (k1 == k) = true <;> simp [Function.comp, h]

theorem mem_foldl_insertKey (cats : List Str) :
    ∀ (acc : List Str) (k : Str),
      k ∈ cats.foldl insertKey acc ↔ k ∈ acc ∨ k ∈ cats := by
  induction cats with
  | nil => intro acc k; simp
  | cons c cs ih =>
    intro acc k
    rw [List.foldl_cons, ih]
    unfold insertKey
    by_cases h : acc.contains c = true
    · have hc : c ∈ acc := List.elem_iff.mp h
      simp only [if_pos h, List.mem_cons]
      constructor
      · rintro (h1 | h1)
        · exact Or.inl h1
        · exact Or.inr (Or.inr h1)
      · rintro (h1 | h1 | h1)
        · exact Or.inl h1
        · exact Or.inl (h1 ▸ hc)
        · exact Or.inr h1
    · simp only [if_neg h, List.mem_append, List.mem_singleton, List.mem_cons]
      tauto

theorem pyKeys_mem (cats : List Str) (k : Str) : k ∈ pyKeys cats ↔ k ∈ cats := by
  unfold pyKeys
  rw [mem_foldl_insertKey]
  simp

theorem containsKey_initCategories (cats : List Str) (k : Str) :
    containsKey (initCategories cats) k = true ↔ k ∈ cats := by
  unfold containsKey initCategories
  rw [List.any_eq_true]
  constructor
  · rintro ⟨x, hx, hbeq⟩
    obtain ⟨k1, hk1, rfl⟩ := List.mem_map.mp hx
    have : k1 = k := by simpa using hbeq
    exact (pyKeys_mem cats k).mp (this ▸ hk1)
  · intro hk
    exact ⟨(k, []), List.mem_map.mpr ⟨k, (pyKeys_mem cats k).mpr hk, rfl⟩, by simp⟩

theorem dictAppend_filter_step (d : List (Str × List Change)) (c : Change)
    (cs : List Change) :
    (dictAppend d (resolvedCategory c) c).map (fun kv =>
        (kv.1, kv.2 ++ cs.filter (fun x => resolvedCategory x == kv.1))) =
      d.map (fun kv =>
        (kv.1, kv.2 ++ (c :: cs).filter (fun x => resolvedCategory x == kv.1))) := by
  rw [dictAppend, List.map_map]
  apply List.map_congr_left
  intro kv _
  obtain ⟨k1, v1⟩ := kv
  by_cases h : (k1 == resolvedCategory c) = true
  · have he : k1 = resolvedCategory c := by simpa using h
    simp [Function.comp, h, List.filter_cons, he]
  · have hne : resolvedCategory c ≠ k1 := fun hh => h (by simp [hh])
    simp [Function.comp, h, List.filter_cons, hne]

theorem dictAppend_filter_eq (d : List (Str × List Change)) (c : Change)
    (cs : List Change) (k : Str) (hk : k = resolvedCategory c) :
    (dictAppend d k c).map (fun kv =>
        (kv.1, kv.2 ++ cs.filter (fun x => resolvedCategory x == kv.1))) =
      d.map (fun kv =>
        (kv.1, kv.2 ++ (c :: cs).filter (fun x => resolvedCategory x == kv.1))) := by
  subst hk
  exact dictAppend_filter_step d c cs

theorem filter_step_skip (d : List (Str × List Change)) (c : Change)
    (cs : List Change) (h : containsKey d (resolvedCategory c) = false) :
    d.map (fun kv =>
        (kv.1, kv.2 ++ (c :: cs).filter (fun x => resolvedCategory x == kv.1))) =
      d.map (fun kv =>
        (kv.1, kv.2 ++ cs.filter (fun x => resolvedCategory x == kv.1))) := by
  apply List.map_congr_left
  intro kv hkv
  rw [containsKey, List.any_eq_false] at h
  have hne : ¬ (kv.1 == resolvedCategory c) = true := h kv hkv
  have : resolvedCategory c ≠ kv.1 := fun hh => hne (by simp [hh])
  simp [List.filter_cons, this]

theorem categorizeLoop_eq (cs : List Change) :
    ∀ (d : List (Str × List Change)),
      categorizeLoop d cs =
        if cs.any (fun c => c.breaking) && !(containsKey d (("Changed").data))
        then Except.error ()
        else Except.ok (d.map (fun kv =>
          (kv.1, kv.2 ++ cs.filter (fun c => resolvedCategory c == kv.1)))) := by
  induction cs with
  | nil =>
    intro d
    simp [categorizeLoop]
  | cons c cs ih =>
    intro d
    by_cases hb : c.breaking = true
    · have hrc : resolvedCategory c = ("Changed").data := by
        simp [resolvedCategory, hb]
      by_cases hk : containsKey d (("Changed").data) = true
      · have step : categorizeStep d c =
            Except.ok (dictAppend d (("Changed").data) c) := by
          simp [categorizeStep, hb, hk]
        simp only [categorizeLoop, step]
        rw [ih, containsKey_dictAppend d (("Changed").data) (("Changed").data) c]
        rw [dictAppend_filter_eq d c cs (("Changed").data) hrc.symm]
        simp [hb, hk]
      · have hkf : containsKey d (("Changed").data) = false :=
          Bool.eq_false_iff.mpr hk
        have step : categorizeStep d c = Except.error () := by
          simp [categorizeStep, hb, hkf]
        simp only [categorizeLoop, step]
        simp [hb, hkf]
    · have hbf : c.breaking = false := Bool.eq_false_iff.mpr hb
      have hrc : resolvedCategory c = typeToCategory c.type := by
        simp [resolvedCategory, hbf]
      by_cases hk : containsKey d (typeToCategory c.type) = true
      · have step : categorizeStep d c =
            Except.ok (dictAppend d (typeToCategory c.type) c) := by
          simp [categorizeStep, hbf, hk]
        simp only [categorizeLoop, step]
        rw [ih, containsKey_dictAppend d (typeToCategory c.type) (("Changed").data) c]
        rw [dictAppend_filter_eq d c cs (typeToCategory c.type) hrc.symm]
        simp [hbf]
      · have hkf : containsKey d (typeToCategory c.type) = false :=
          Bool.eq_false_iff.mpr hk
        have step : categorizeStep d c = Except.ok d := by
          simp [categorizeStep, hbf, hkf]
        simp only [categorizeLoop, step]
        rw [ih]
        rw [← hrc] at hkf
        rw [filter_step_skip d c cs hkf]
        simp [hbf]

/-- Full functional characterization of `_categorize_changes`: it raises
exactly when some change is breaking and `"Changed"` is not a configured
category; otherwise each configured category (in first-occurrence configured
order) holds exactly the changes resolving to it, in input order, with empty
buckets dropped. -/
theorem categorize_changes_eq (cats : List Str) (changes : List Change) :
    _categorize_changes cats changes =
      if changes.any (fun c => c.breaking) &&
          !(containsKey (initCategories cats) (("Changed").data))
      then Except.error ()
      else Except.ok (((pyKeys cats).map (fun k =>
        (k, changes.filter (fun c => resolvedCategory c == k)))).filter
          (fun kv => !kv.2.isEmpty)) := by
  unfold _categorize_changes
  rw [categorizeLoop_eq]
  by_cases h : (changes.any (fun c => c.breaking) &&
      !(containsKey (initCategories cats) (("Changed").data))) = true
  · simp [h]
  · have hf := Bool.eq_false_iff.mpr h
    simp only [hf, if_false]
    rw [initCategories, List.map_map]
    rfl

/-! ### Concrete changes used by witnesses -/

/-- A breaking `feat` change, as produced from the commit `feat!: remove Z`. -/
def breakingFeat : Change :=
  { description := ("remove Z").data, commit_hash := ("h1").data,
    commit_message := ("feat!: remove Z").data, author := ("alice").data,
    type := ("feat").data, scope := none, breaking := true,
    ai_enhanced := false, references := [] }

/-- A non-breaking `docs` change; its category `Documentation` is easy to
leave out of a configured category set. -/
def docsChange : Change :=
  { description := ("update readme").data, commit_hash := ("h2").data,
    commit_message := ("docs: update readme").data, author := ("bob").data,
    type := ("docs").data, scope := none, breaking := false,
    ai_enhanced := false, references := [] }

/-! ### Claims C1 and C2 -/

theorem dropped_not_in_result (cats : List Str) (changes : List Change) :
    ∀ c ∈ changes, c.breaking = false → typeToCategory c.type ∉ cats →
      ∀ kv ∈ ((pyKeys cats).map (fun k =>
          (k, changes.filter (fun x => resolvedCategory x == k)))).filter
            (fun kv => !kv.2.isEmpty), c ∉ kv.2 := by
  intro c hc hbf hnot kv hkv hmem
  have hkv' := List.mem_of_mem_filter hkv
  obtain ⟨k, hk, rfl⟩ := List.mem_map.mp hkv'
  have hpred := List.of_mem_filter hmem
  have hrk : resolvedCategory c = k := by simpa using hpred
  have hkcats : k ∈ cats := (pyKeys_mem cats k).mp hk
  rw [resolvedCategory, hbf] at hrk
  simp only [Bool.false_eq_true, if_false] at hrk
  exact hnot (hrk ▸ hkcats)

/-- C1 (counterexample to the claim as stated): with configured categories
`["Added"]` — a configuration the config model accepts — a single breaking
change makes `_categorize_changes` raise `KeyError` on
`categories["Changed"]` instead of silently dropping the change. -/
theorem categorize_raises_on_breaking_without_changed :
    _categorize_changes [("Added").data] [breakingFeat] = Except.error () := by
  rfl

/-- C1 (amended): categorization never raises and silently omits non-enabled
categories, provided that whenever some change is breaking the override
target `"Changed"` is among the configured categories; a non-breaking change
whose resolved category is not configured is omitted from every bucket of the
result. -/
theorem categorize_total_and_silently_drops (cats : List Str)
    (changes : List Change)
    (h : changes.any (fun c => c.breaking) = true → (("Changed").data) ∈ cats) :
    ∃ d, _categorize_changes cats changes = Except.ok d ∧
      ∀ c ∈ changes, c.breaking = false → typeToCategory c.type ∉ cats →
        ∀ kv ∈ d, c ∉ kv.2 := by
  rw [categorize_changes_eq]
  have hcond : (changes.any (fun c => c.breaking) &&
      !(containsKey (initCategories cats) (("Changed").data))) = false := by
    by_cases hany : changes.any (fun c => c.breaking) = true
    · have := (containsKey_initCategories cats (("Changed").data)).mpr (h hany)
      simp [hany, this]
    · simp [Bool.eq_false_iff.mpr hany]
  rw [hcond]
  simp only [Bool.false_eq_true, if_false]
  exact ⟨_, rfl, dropped_not_in_result cats changes⟩

/-- C1 amended-claim witness at a concrete input: with categories `["Added"]`
and one non-breaking `docs` change, categorization succeeds and the change
(whose category `Documentation` is not enabled) lands in no bucket. -/
theorem categorize_total_and_silently_drops_witness :
    ∃ d, _categorize_changes [("Added").data] [docsChange] = Except.ok d ∧
      ∀ c ∈ [docsChange], c.breaking = false →
        typeToCategory c.type ∉ [("Added").data] → ∀ kv ∈ d, c ∉ kv.2 :=
  categorize_total_and_silently_drops [("Added").data] [docsChange]
    (fun hh => absurd hh (by decide))

/-- C2: in any successful categorization, a breaking change is in the bucket
named `"Changed"`, and in no other bucket, regardless of its type. -/
theorem breaking_change_filed_under_changed (cats : List Str)
    (changes : List Change) (c : Change) (d : List (Str × List Change))
    (hok : _categorize_changes cats changes = Except.ok d)
    (hc : c ∈ changes) (hb : c.breaking = true) :
    (∃ kv ∈ d, kv.1 = ("Changed").data ∧ c ∈ kv.2) ∧
      ∀ kv ∈ d, c ∈ kv.2 → kv.1 = ("Changed").data := by
  rw [categorize_changes_eq] at hok
  have hany : changes.any (fun x => x.breaking) = true :=
    List.any_eq_true.mpr ⟨c, hc, hb⟩
  by_cases hcond : (changes.any (fun x => x.breaking) &&
      !(containsKey (initCategories cats) (("Changed").data))) = true
  · rw [if_pos hcond] at hok
    exact absurd hok (by simp)
  · rw [if_neg hcond] at hok
    have hd := (Except.ok.injEq _ _).mp hok
    subst hd
    have hck : containsKey (initCategories cats) (("Changed").data) = true := by
      by_contra hno
      exact hcond (by simp [hany, Bool.eq_false_iff.mpr hno])
    have hchanged : (("Changed").data) ∈ pyKeys cats :=
      (pyKeys_mem cats _).mpr ((containsKey_initCategories cats _).mp hck)
    have hrc : resolvedCategory c = ("Changed").data := by
      simp [resolvedCategory, hb]
    have hcf : c ∈ changes.filter
        (fun x => resolvedCategory x == (("Changed").data)) :=
      List.mem_filter.mpr ⟨hc, by simp [hrc]⟩
    constructor
    · refine ⟨((("Changed").data),
        changes.filter (fun x => resolvedCategory x == (("Changed").data))),
        ?_, rfl, hcf⟩
      refine List.mem_filter.mpr ⟨List.mem_map.mpr ⟨("Changed").data, hchanged, rfl⟩, ?_⟩
      have hne := List.ne_nil_of_mem hcf
      simp [hne]
    · intro kv hkv hcm
      have hkv' := List.mem_of_mem_filter hkv
      obtain ⟨k, hk, rfl⟩ := List.mem_map.mp hkv'
      have hpk := List.of_mem_filter hcm
      have hrk : resolvedCategory c = k := by simpa using hpk
      show k = ("Changed").data
      rw [← hrk]
      exact hrc

/-- C2 witness: with categories `["Added", "Changed"]` and the breaking
`feat` change, the change is filed under `"Changed"` and nowhere else. -/
theorem breaking_change_filed_under_changed_witness :
    (∃ kv ∈ [((("Changed").data), [breakingFeat])],
        kv.1 = ("Changed").data ∧ breakingFeat ∈ kv.2) ∧
      ∀ kv ∈ [((("Changed").data), [breakingFeat])],
        breakingFeat ∈ kv.2 → kv.1 = ("Changed").data :=
  breaking_change_filed_under_changed
    [("Added").data, ("Changed").data] [breakingFeat] breakingFeat
    [((("Changed").data), [breakingFeat])] (by rfl) (by simp) rfl

/-! ### The Conventional Commits header grammar, stated declaratively -/

/-- Rendering of the optional scope group. -/
def scopeSeg : Option Str → Str
  | none => []
  | some sc => '(' :: (sc ++ [')'])

/-- Rendering of the optional breaking bang. -/
def bangSeg : Bool → Str
  | true => ['!']
  | false => []

/-- The admissible remainders after the description under the regex tail
`(?:\n\n(?P<body>.+))?$` with `re.DOTALL`. -/
def TailForm (tail : Str) : Prop :=
  tail = [] ∨ tail = ['\n'] ∨ ∃ b, b ≠ [] ∧ tail = '\n' :: '\n' :: b

/-- A message matches the Conventional Commits grammar of the source regex:
a recognized type, an optional nonempty parenthesized scope, an optional
bang, a colon-space, a nonempty single-line description, and an admissible
tail. -/
def MatchesGrammar (s : Str) : Prop :=
  ∃ t sc bang desc tail,
    t ∈ CONVENTIONAL_TYPES ∧
    (∀ x, sc = some x → x ≠ [] ∧ (')') ∉ x) ∧
    desc ≠ [] ∧ ('\n') ∉ desc ∧ TailForm tail ∧
    s = t ++ scopeSeg sc ++ bangSeg bang ++ ':' :: ' ' :: (desc ++ tail)

theorem findType_sound (s t r : Str) (h : findType s = some (t, r)) :
    t ∈ CONVENTIONAL_TYPES ∧ s = t ++ r := by
  unfold findType at h
  rw [Option.map_eq_some'] at h
  obtain ⟨t', hfind, heq⟩ := h
  have h1 : t' = t := congrArg Prod.fst heq
  have h2 : s.drop t'.length = r := congrArg Prod.snd heq
  rw [h1] at hfind h2
  refine ⟨List.mem_of_find?_eq_some hfind, ?_⟩
  have hp1 := List.find?_some hfind
  have hpref : t <+: s := List.isPrefixOf_iff_prefix.mp (by simpa using hp1)
  obtain ⟨u, hu⟩ := hpref
  subst hu
  rw [List.drop_left] at h2
  rw [h2]

theorem parseScopePart_sound (s : Str) (sc : Option Str) (r : Str)
    (h : parseScopePart s = (sc, r)) :
    s = scopeSeg sc ++ r ∧ ∀ x, sc = some x → x ≠ [] ∧ (')') ∉ x := by
  unfold parseScopePart at h
  split at h
  · next rest =>
    split at h
    · next rest2 heq =>
      split at h
      · next hemp =>
        obtain ⟨rfl, rfl⟩ := Prod.mk.inj h
        exact ⟨by simp [scopeSeg], fun x hx => absurd hx (by simp)⟩
      · next hemp =>
        obtain ⟨rfl, rfl⟩ := Prod.mk.inj h
        constructor
        · show '(' :: rest = scopeSeg (some _) ++ rest2
          have hr : rest = rest.takeWhile (fun c => c != ')') ++ (')' :: rest2) := by
            conv_lhs => rw [← List.takeWhile_append_dropWhile
              (p := fun c => c != ')') (l := rest)]
            rw [heq]
          rw [scopeSeg]
          simp only [List.cons_append, List.append_assoc, List.singleton_append,
            List.nil_append]
          conv_lhs => rw [hr]
        · intro x hx
          obtain rfl := Option.some.inj hx
          constructor
          · intro hnil
            rw [hnil] at hemp
            simp at hemp
          · intro hmem
            have := List.mem_takeWhile_imp hmem
            simp at this
    · next heq =>
      obtain ⟨rfl, rfl⟩ := Prod.mk.inj h
      exact ⟨by simp [scopeSeg], fun x hx => absurd hx (by simp)⟩
  · next hne =>
    obtain ⟨rfl, rfl⟩ := Prod.mk.inj h
    exact ⟨by simp [scopeSeg], fun x hx => absurd hx (by simp)⟩

theorem parseBang_sound (s : Str) (b : Bool) (r : Str)
    (h : parseBang s = (b, r)) : s = bangSeg b ++ r := by
  unfold parseBang at h
  split at h
  · next rest =>
    obtain ⟨rfl, rfl⟩ := Prod.mk.inj h
    simp [bangSeg]
  · next hne =>
    obtain ⟨rfl, rfl⟩ := Prod.mk.inj h
    simp [bangSeg]

theorem parseTail_sound (s : Str) (body : Option Str)
    (h : parseTail s = some body) : TailForm s := by
  unfold parseTail at h
  split at h
  · exact Or.inl rfl
  · exact Or.inr (Or.inl rfl)
  · next b =>
    split at h
    · exact absurd h (by simp)
    · next hne =>
      refine Or.inr (Or.inr ⟨b, ?_, rfl⟩)
      intro hnil
      rw [hnil] at hne
      simp at hne
  · exact absurd h (by simp)

theorem parseTail_some_body (s : Str) (b : Str)
    (h : parseTail s = some (some b)) : s = '\n' :: '\n' :: b := by
  unfold parseTail at h
  split at h
  · exact absurd (Option.some.inj h) (by simp)
  · exact absurd (Option.some.inj h) (by simp)
  · next b' =>
    split at h
    · exact absurd h (by simp)
    · obtain rfl := Option.some.inj (Option.some.inj h)
      rfl
  · exact absurd h (by simp)

theorem matchConventionalCommit_sound (s : Str) (t : Str) (sc : Option Str)
    (bang : Bool) (desc : Str) (body : Option Str)
    (h : matchConventionalCommit s = some (t, sc, bang, desc, body)) :
    t ∈ CONVENTIONAL_TYPES ∧
      (∀ x, sc = some x → x ≠ [] ∧ (')') ∉ x) ∧
      desc ≠ [] ∧ ('\n') ∉ desc ∧
      ∃ tail, TailForm tail ∧ parseTail tail = some body ∧
        s = t ++ scopeSeg sc ++ bangSeg bang ++ ':' :: ' ' :: (desc ++ tail) := by
  unfold matchConventionalCommit at h
  split at h
  · exact absurd h (by simp)
  · next t' r1 heqft =>
    rcases hps : parseScopePart r1 with ⟨sc2, r2⟩
    rcases hpb : parseBang r2 with ⟨bang2, r3⟩
    rw [hps] at h
    simp only at h
    rw [hpb] at h
    simp only at h
    split at h
    · next r4 =>
      split at h
      · exact absurd h (by simp)
      · next hemp =>
        split at h
        · exact absurd h (by simp)
        · next body' heqtail =>
          obtain ⟨rfl, rfl, rfl, rfl, rfl⟩ :=
            by simpa using Option.some.inj h
          obtain ⟨htmem, hs1⟩ := findType_sound s t' r1 heqft
          obtain ⟨hs2, hscwf⟩ := parseScopePart_sound r1 sc2 r2 hps
          have hs3 : r2 = bangSeg bang2 ++ (':' :: ' ' :: r4) :=
            parseBang_sound r2 bang2 (':' :: ' ' :: r4) hpb
          refine ⟨htmem, hscwf, ?_, ?_, ?_⟩
          · intro hnil
            rw [hnil] at hemp
            simp at hemp
          · intro hmem
            have := List.mem_takeWhile_imp hmem
            simp at this
          · refine ⟨r4.dropWhile (fun c => c != '\n'),
              parseTail_sound _ _ heqtail, heqtail, ?_⟩
            rw [List.takeWhile_append_dropWhile]
            rw [hs1, hs2, hs3]
            simp [List.append_assoc]
    · exact absurd h (by simp)

/-- A grammar match forces a recognized type to be a literal prefix of the
message (used to discharge non-match hypotheses on concrete inputs). -/
theorem matchesGrammar_type_starts (s : Str) (h : MatchesGrammar s) :
    ∃ t ∈ CONVENTIONAL_TYPES, t <+: s := by
  obtain ⟨t, sc, bang, desc, tail, htmem, _, _, _, _, heq⟩ := h
  refine ⟨t, htmem, ?_⟩
  rw [heq]
  simp only [List.append_assoc]
  exact List.prefix_append t _

/-! ### Claims C3 and C4 -/

/-- C3: the parser is total by construction (it is a function into the
4-tuple type); its resulting type is always either `"other"` or a recognized
type, and on any message that does not match the Conventional Commits
grammar it returns exactly `("other", None, <whole message>, False)`. -/
theorem parse_fallback_total (s : Str) :
    ((parse_conventional_commit s).1 = ("other").data ∨
      (parse_conventional_commit s).1 ∈ CONVENTIONAL_TYPES) ∧
    (¬ MatchesGrammar s →
      parse_conventional_commit s = (("other").data, none, s, false)) := by
  cases hm : matchConventionalCommit s with
  | none =>
    constructor
    · left
      simp [parse_conventional_commit, hm]
    · intro _
      simp [parse_conventional_commit, hm]
  | some r =>
    obtain ⟨t, sc, bang, desc, body⟩ := r
    have hs := matchConventionalCommit_sound s t sc bang desc body hm
    obtain ⟨tail, htf, _, heq⟩ := hs.2.2.2.2
    have hg : MatchesGrammar s :=
      ⟨t, sc, bang, desc, tail, hs.1, hs.2.1, hs.2.2.1, hs.2.2.2.1, htf, heq⟩
    constructor
    · right
      simpa [parse_conventional_commit, hm] using hs.1
    · intro hng
      exact absurd hg hng

/-- C3 witness: a free-form message matches no recognized type, so the
parser falls back to `("other", None, message, False)`. -/
theorem parse_fallback_total_witness :
    parse_conventional_commit (("hello world").data) =
      (("other").data, none, ("hello world").data, false) :=
  (parse_fallback_total (("hello world").data)).2
    (fun h => absurd (matchesGrammar_type_starts _ h) (by decide))

/-- C4: the two independent breaking signals, on the three inputs the claim
fixes: a bang before the colon sets breaking, a `BREAKING CHANGE:` marker in
the body sets breaking, and a plain header leaves it false. -/
theorem breaking_or_of_two_signals :
    parse_conventional_commit (("feat!: x").data) =
      (("feat").data, none, ("x").data, true) ∧
    parse_conventional_commit (("feat: x\n\nBREAKING CHANGE: y").data) =
      (("feat").data, none, ("x").data, true) ∧
    parse_conventional_commit (("feat: x").data) =
      (("feat").data, none, ("x").data, false) :=
  ⟨by decide, by decide, by decide⟩

/-! ## Document model operations (`models/changelog.py`) -/

/-- `Changelog.add_version`: `self.versions.insert(0, version)`. -/
def Changelog.add_version (cl : Changelog) (v : Version) : Changelog :=
  { versions := v :: cl.versions }

/-- The linear scan `for version in self.versions: if <pred>: return version`
shared by `get_version` and `get_latest_version`. -/
def findVersionBy (p : Version → Bool) : List Version → Option Version
  | [] => none
  | v :: rest => if p v then some v else findVersionBy p rest

/-- `Changelog.get_version`: first version whose number equals the argument. -/
def Changelog.get_version (cl : Changelog) (number : Str) : Option Version :=
  findVersionBy (fun v => v.number == number) cl.versions

/-- `Changelog.get_latest_version`: first version not numbered "Unreleased". -/
def Changelog.get_latest_version (cl : Changelog) : Option Version :=
  findVersionBy (fun v => v.number != ("Unreleased").data) cl.versions

/-- `Changelog.get_unreleased_changes`. -/
def Changelog.get_unreleased_changes (cl : Changelog) : Option Version :=
  cl.get_version (("Unreleased").data)

theorem findVersionBy_eq_none (p : Version → Bool) (l : List Version) :
    findVersionBy p l = none ↔ ∀ v ∈ l, p v = false := by
  induction l with
  | nil => simp [findVersionBy]
  | cons v rest ih =>
    by_cases h : p v = true
    · simp [findVersionBy, h]
    · have hf := Bool.eq_false_iff.mpr h
      simp [findVersionBy, hf, ih]

theorem findVersionBy_eq_some (p : Version → Bool) (l : List Version)
    (u : Version) (h : findVersionBy p l = some u) :
    p u = true ∧ ∃ l1 l2, l = l1 ++ u :: l2 ∧ ∀ w ∈ l1, p w = false := by
  induction l with
  | nil => exact absurd h (by simp [findVersionBy])
  | cons v rest ih =>
    by_cases hv : p v = true
    · rw [findVersionBy, if_pos hv] at h
      obtain rfl := Option.some.inj h
      exact ⟨hv, [], rest, rfl, by simp⟩
    · have hf := Bool.eq_false_iff.mpr hv
      rw [findVersionBy, if_neg hv] at h
      obtain ⟨hp, l1, l2, heq, hall⟩ := ih h
      refine ⟨hp, v :: l1, l2, by rw [heq]; rfl, ?_⟩
      intro w hw
      rcases List.mem_cons.mp hw with hw1 | hw2
      · rw [hw1]; exact hf
      · exact hall w hw2

/-! ### Claim C6 -/

/-- C6: `add_version` inserts at index 0 (after adding `v1` then `v2`, the
head is `v2`); `get_version n` is the first version in list order numbered
`n`, absent exactly when none is; `get_latest_version` is the first version
not literally numbered `"Unreleased"`, absent exactly when the model is empty
or holds only `"Unreleased"` versions. -/
theorem changelog_document_model_ops (cl : Changelog) (v1 v2 : Version)
    (n : Str) :
    ((cl.add_version v1).add_version v2).versions.head? = some v2 ∧
    (cl.get_version n = none ↔ ∀ u ∈ cl.versions, u.number ≠ n) ∧
    (∀ u, cl.get_version n = some u →
      u.number = n ∧
        ∃ l1 l2, cl.versions = l1 ++ u :: l2 ∧ ∀ w ∈ l1, w.number ≠ n) ∧
    (cl.get_latest_version = none ↔
      ∀ u ∈ cl.versions, u.number = ("Unreleased").data) ∧
    (∀ u, cl.get_latest_version = some u →
      u.number ≠ ("Unreleased").data ∧
        ∃ l1 l2, cl.versions = l1 ++ u :: l2 ∧
          ∀ w ∈ l1, w.number = ("Unreleased").data) := by
  refine ⟨rfl, ?_, ?_, ?_, ?_⟩
  · rw [Changelog.get_version, findVersionBy_eq_none]
    constructor
    · intro h u hu
      have := h u hu
      simpa using this
    · intro h u hu
      have := h u hu
      simpa using this
  · intro u hu
    obtain ⟨hp, l1, l2, heq, hall⟩ :=
      findVersionBy_eq_some (fun v => v.number == n) cl.versions u hu
    exact ⟨by simpa using hp, l1, l2, heq,
      fun w hw => by simpa using hall w hw⟩
  · rw [Changelog.get_latest_version, findVersionBy_eq_none]
    constructor
    · intro h u hu
      have := h u hu
      simpa using this
    · intro h u hu
      have := h u hu
      simpa using this
  · intro u hu
    obtain ⟨hp, l1, l2, heq, hall⟩ :=
      findVersionBy_eq_some (fun v => v.number != ("Unreleased").data)
        cl.versions u hu
    exact ⟨by simpa using hp, l1, l2, heq,
      fun w hw => by simpa using hall w hw⟩

/-- A demo "Unreleased" pseudo-version. -/
def vUnreleased : Version :=
  { number := ("Unreleased").data, date := ("2024-01-01").data,
    categories := [], summary := none, breaking_changes := false,
    yanked := false, compare_url := none }

/-- A demo released version. -/
def vOne : Version :=
  { number := ("1.0.0").data, date := ("2024-02-01").data,
    categories := [], summary := none, breaking_changes := false,
    yanked := false, compare_url := none }

/-- C6 witness: inserting `vUnreleased` then `vOne` puts `vOne` at the head,
and on the model `[vUnreleased, vOne]` the latest released version is `vOne`,
found past the leading "Unreleased" entry. -/
theorem changelog_document_model_ops_witness :
    (((Changelog.mk []).add_version vUnreleased).add_version
        vOne).versions.head? = some vOne ∧
      (vOne.number ≠ ("Unreleased").data ∧
        ∃ l1 l2, (Changelog.mk [vUnreleased, vOne]).versions = l1 ++ vOne :: l2 ∧
          ∀ w ∈ l1, w.number = ("Unreleased").data) :=
  ⟨(changelog_document_model_ops (Changelog.mk []) vUnreleased vOne
      (("1.0.0").data)).1,
   (changelog_document_model_ops (Changelog.mk [vUnreleased, vOne]) vUnreleased
      vOne (("1.0.0").data)).2.2.2.2 vOne (by rfl)⟩

/-! ## Renderer (`ChangelogService.render_version`) -/

/-- One `- <prefix><scope><description>\n` line of the renderer's inner loop
(`prefix` present exactly for breaking changes, scope segment present exactly
for a truthy scope). -/
def render_change_line (c : Change) : Str :=
  ("- ").data ++
    (if c.breaking then ("BREAKING CHANGE: ").data else []) ++
    (match c.scope with
     | some s => if s.isEmpty then [] else ("**").data ++ s ++ ("**: ").data
     | none => []) ++
    c.description ++ ['\n']

/-- The per-category block of the renderer's outer loop; an empty category is
skipped (`continue`) and contributes nothing. -/
def render_category (cat : Category) : Str :=
  if cat.changes.isEmpty then []
  else ("### ").data ++ cat.name ++ ("\n\n").data ++
    (cat.changes.map render_change_line).flatten ++ ['\n']

/-- `ChangelogService.render_version`: the header with number and date, the
summary if truthy, the breaking-changes heading if flagged, then the
category loop; the `output +=` loops are embedded as left folds. -/
def render_version (v : Version) : Str :=
  v.categories.foldl (fun acc cat =>
    if cat.changes.isEmpty then acc
    else
      (cat.changes.foldl (fun acc2 c => acc2 ++ render_change_line c)
        (acc ++ ("### ").data ++ cat.name ++ ("\n\n").data)) ++ ['\n'])
    ((("## [").data ++ v.number ++ ("] - ").data ++ v.date ++ ("\n\n").data) ++
     (match v.summary with
      | some s => if s.isEmpty then [] else s ++ ("\n\n").data
      | none => []) ++
     (if v.breaking_changes then ("### ⚠️ BREAKING CHANGES\n\n").data else []))

theorem foldl_append_lines (l : List Change) :
    ∀ a : Str, l.foldl (fun acc2 c => acc2 ++ render_change_line c) a =
      a ++ (l.map render_change_line).flatten := by
  induction l with
  | nil => intro a; simp
  | cons c cs ih => intro a; simp [ih, List.append_assoc]

theorem render_step_eq (acc : Str) (cat : Category) :
    (if cat.changes.isEmpty then acc
     else
       (cat.changes.foldl (fun acc2 c => acc2 ++ render_change_line c)
         (acc ++ ("### ").data ++ cat.name ++ ("\n\n").data)) ++ ['\n']) =
      acc ++ render_category cat := by
  by_cases h : cat.changes.isEmpty = true
  · simp [h, render_category]
  · have hf := Bool.eq_false_iff.mpr h
    rw [if_neg h, foldl_append_lines]
    simp [render_category, hf, List.append_assoc]

theorem foldl_render_cats (l : List Category) :
    ∀ a : Str,
      l.foldl (fun acc cat =>
        if cat.changes.isEmpty then acc
        else
          (cat.changes.foldl (fun acc2 c => acc2 ++ render_change_line c)
            (acc ++ ("### ").data ++ cat.name ++ ("\n\n").data)) ++ ['\n']) a =
        a ++ (l.map render_category).flatten := by
  induction l with
  | nil => intro a; simp
  | cons cat cats ih =>
    intro a
    rw [List.foldl_cons, render_step_eq, ih]
    simp [List.append_assoc]

/-- Structural decomposition of the rendered version: header, summary
segment, breaking-changes heading segment, then the concatenated category
blocks. -/
theorem render_version_eq (v : Version) :
    render_version v =
      (("## [").data ++ v.number ++ ("] - ").data ++ v.date ++ ("\n\n").data) ++
      (match v.summary with
       | some s => if s.isEmpty then [] else s ++ ("\n\n").data
       | none => []) ++
      (if v.breaking_changes then ("### ⚠️ BREAKING CHANGES\n\n").data
        else []) ++
      (v.categories.map render_category).flatten := by
  unfold render_version
  rw [foldl_render_cats]

/-! ### Claim C7 -/

/-- C7: the rendered version contains `## [<number>]`; every change of every
category renders as a `- ` line carrying the `BREAKING CHANGE: ` prefix
exactly when the change is breaking and the `**scope**: ` segment exactly
when a scope is present, followed by the description; the breaking-changes
heading segment is emitted exactly when `breaking_changes` is set and
enumerates nothing (the category blocks follow it directly, per the
decomposition); empty categories contribute no output. -/
theorem render_version_structure (v : Version) :
    ((("## [").data ++ v.number ++ ("]").data) <:+: render_version v) ∧
    (∀ cat ∈ v.categories, ∀ c ∈ cat.changes,
      (("- ").data ++
        (if c.breaking then ("BREAKING CHANGE: ").data else []) ++
        (match c.scope with
         | some s => if s.isEmpty then [] else ("**").data ++ s ++ ("**: ").data
         | none => []) ++
        c.description ++ ['\n']) <:+: render_version v) ∧
    (v.breaking_changes = true →
      (("### ⚠️ BREAKING CHANGES").data) <:+: render_version v) ∧
    (render_version v =
      (("## [").data ++ v.number ++ ("] - ").data ++ v.date ++
        ("\n\n").data) ++
      (match v.summary with
       | some s => if s.isEmpty then [] else s ++ ("\n\n").data
       | none => []) ++
      (if v.breaking_changes then ("### ⚠️ BREAKING CHANGES\n\n").data
        else []) ++
      (v.categories.map render_category).flatten) ∧
    (∀ cat ∈ v.categories, cat.changes = [] → render_category cat = []) := by
  refine ⟨?_, ?_, ?_, render_version_eq v, ?_⟩
  · rw [render_version_eq]
    apply List.IsPrefix.isInfix
    have hsplit : ("] - ").data = ("]").data ++ ((" - ").data) := rfl
    rw [hsplit]
    exact ⟨(" - ").data ++ v.date ++ ("\n\n").data ++
      (match v.summary with
       | some s => if s.isEmpty then [] else s ++ ("\n\n").data
       | none => []) ++
      (if v.breaking_changes then ("### ⚠️ BREAKING CHANGES\n\n").data
        else []) ++
      (v.categories.map render_category).flatten, by simp [List.append_assoc]⟩
  · intro cat hcat c hc
    show render_change_line c <:+: render_version v
    rw [render_version_eq]
    have h1 : render_change_line c <:+:
        (cat.changes.map render_change_line).flatten :=
      List.infix_of_mem_flatten (List.mem_map_of_mem _ hc)
    have hcne : ¬ cat.changes.isEmpty = true := by
      intro hx
      exact List.ne_nil_of_mem hc (List.isEmpty_iff.mp hx)
    have h2 : render_category cat =
        ("### ").data ++ cat.name ++ ("\n\n").data ++
          (cat.changes.map render_change_line).flatten ++ ['\n'] := by
      rw [render_category, if_neg hcne]
    have h3 : render_change_line c <:+: render_category cat := by
      rw [h2]
      exact h1.trans (List.infix_append _ _ _)
    have h4 : render_category cat <:+: (v.categories.map render_category).flatten :=
      List.infix_of_mem_flatten (List.mem_map_of_mem _ hcat)
    exact h3.trans (h4.trans (List.suffix_append _ _).isInfix)
  · intro hb
    have hifeq : (if v.breaking_changes then
          ("### ⚠️ BREAKING CHANGES\n\n").data else ([] : Str)) =
        ("### ⚠️ BREAKING CHANGES").data ++ (("\n\n").data) := by
      rw [hb]
      exact rfl
    rw [render_version_eq, hifeq]
    exact ((List.prefix_append _ _).isInfix).trans (List.infix_append _ _ _)
  · intro cat _ h
    simp [render_category, h]

/-- A demo version carrying one breaking change, for the render witness. -/
def vRender : Version :=
  { number := ("1.0.0").data, date := ("2024-02-01").data,
    categories := [{ name := ("Changed").data, changes := [breakingFeat] }],
    summary := none, breaking_changes := true, yanked := false,
    compare_url := none }

/-- C7 witness: on a concrete version, the number heading and the
breaking-changes heading both occur in the rendered output. -/
theorem render_version_structure_witness :
    ((("## [").data ++ vRender.number ++ ("]").data) <:+:
        render_version vRender) ∧
      ((("### ⚠️ BREAKING CHANGES").data) <:+: render_version vRender) :=
  ⟨(render_version_structure vRender).1,
   (render_version_structure vRender).2.2.1 rfl⟩

/-! ## AI enhancement service (`services/openai.py`) -/

/-- Python's `str.strip()`. -/
def pyStrip (s : Str) : Str :=
  ((s.dropWhile Char.isWhitespace).reverse.dropWhile Char.isWhitespace).reverse

/-- The `AIService` collaborator state: `avail` models the `is_available()`
check and the two response oracles model the chat-completion calls —
`Except.error` for a raised `OpenAIError`/exception, `Except.ok none` for a
response with no choices or `None` content, `Except.ok (some content)` for a
content string (still treated as falsy by the code when empty). -/
structure AIService where
  avail : Bool
  enhanceResp : Change → Except Unit (Option Str)
  summaryResp : Version → Except Unit (Option Str)

/-- `AIService.enhance_change_description`: on unavailability, any caught
exception, or falsy content the original change is returned unchanged; on
success a new `Change` copies every field except `description` (the stripped
content) and `ai_enhanced`. -/
def enhance_change_description (svc : AIService) (c : Change) : Change :=
  if svc.avail = false then c
  else
    match svc.enhanceResp c with
    | Except.error _ => c
    | Except.ok none => c
    | Except.ok (some content) =>
      if content.isEmpty then c
      else
        { description := pyStrip content, commit_hash := c.commit_hash,
          commit_message := c.commit_message, author := c.author,
          type := c.type, scope := c.scope, breaking := c.breaking,
          ai_enhanced := true, references := c.references }

/-- `AIService.enhance_changes`: the per-item list comprehension (identity
when the service is unavailable). -/
def enhance_changes (svc : AIService) (changes : List Change) : List Change :=
  if svc.avail = false then changes
  else changes.map (enhance_change_description svc)

/-- The `- {description} ({type})` bullet of `generate_version_summary`. -/
def summaryBullet (c : Change) : Str :=
  ("- ").data ++ c.description ++ (" (").data ++ c.type ++ (")").data

/-- The `changes_text` string joined over all categories' changes. -/
def changesText (v : Version) : Str :=
  List.intercalate ['\n']
    ((v.categories.map (fun cat => cat.changes.map summaryBullet)).flatten)

/-- `AIService.generate_version_summary`: unavailable → the version itself;
empty `changes_text` → a new version with the fixed no-changes summary;
otherwise a new version whose summary is the stripped response content, or
the fixed fallback string on failure or falsy content.  Every other field is
copied from the input. -/
def generate_version_summary (svc : AIService) (v : Version) : Version :=
  if svc.avail = false then v
  else if (changesText v).isEmpty then
    { number := v.number, date := v.date, categories := v.categories,
      summary := some (("No changes in this version.").data),
      breaking_changes := v.breaking_changes, yanked := v.yanked,
      compare_url := v.compare_url }
  else
    { number := v.number, date := v.date, categories := v.categories,
      summary := some (match svc.summaryResp v with
        | Except.error _ => ("No significant changes in this version.").data
        | Except.ok none => ("No significant changes in this version.").data
        | Except.ok (some content) =>
          if content.isEmpty then
            ("No significant changes in this version.").data
          else pyStrip content),
      breaking_changes := v.breaking_changes, yanked := v.yanked,
      compare_url := v.compare_url }

/-! ### Claims C8 and C9 -/

/-- The per-item failure modes of the enhancement call: a raised exception,
a response with no usable content, or an empty content string. -/
def responseFailed (svc : AIService) (c : Change) : Prop :=
  svc.enhanceResp c = Except.error () ∨ svc.enhanceResp c = Except.ok none ∨
    svc.enhanceResp c = Except.ok (some [])

theorem enhance_failed_id (svc : AIService) (c : Change)
    (hf : responseFailed svc c) : enhance_change_description svc c = c := by
  rcases hf with hf | hf | hf <;> by_cases h : svc.avail = false <;>
    simp [enhance_change_description, h, hf]

/-- C8: batch enhancement returns a list of the same length, and any item
whose underlying call raised or returned an empty response is returned
unchanged at its original position; a per-item failure never aborts the
batch (the function is total and the other positions are unaffected). -/
theorem enhance_changes_fallback (svc : AIService) (changes : List Change) :
    (enhance_changes svc changes).length = changes.length ∧
    ∀ i, ∀ h1 : i < changes.length,
      responseFailed svc (changes.get ⟨i, h1⟩) →
        (enhance_changes svc changes)[i]? = some (changes.get ⟨i, h1⟩) := by
  constructor
  · by_cases h : svc.avail = false <;> simp [enhance_changes, h]
  · intro i h1 hf
    by_cases h : svc.avail = false
    · simp [enhance_changes, h, List.getElem?_eq_getElem h1,
        List.get_eq_getElem]
    · have hid : enhance_change_description svc (changes.get ⟨i, h1⟩) =
          changes.get ⟨i, h1⟩ := enhance_failed_id svc _ hf
      simp only [List.get_eq_getElem] at hid
      simp [enhance_changes, h, List.getElem?_map,
        List.getElem?_eq_getElem h1, List.get_eq_getElem, hid]

/-- A concrete enhancement collaborator that raises on the commit with hash
`h1` and succeeds elsewhere. -/
def demoOracle : AIService :=
  { avail := true,
    enhanceResp := fun c =>
      if c.commit_hash = ("h1").data then Except.error ()
      else Except.ok (some (("Adds documentation").data)),
    summaryResp := fun _ => Except.ok none }

/-- C8 witness: a batch of two where the first item's call raises still
yields two items, the first of which is the original change. -/
theorem enhance_changes_fallback_witness :
    (enhance_changes demoOracle [breakingFeat, docsChange]).length =
      ([breakingFeat, docsChange] : List Change).length ∧
    (enhance_changes demoOracle [breakingFeat, docsChange])[0]? =
      some breakingFeat :=
  ⟨(enhance_changes_fallback demoOracle [breakingFeat, docsChange]).1,
   (enhance_changes_fallback demoOracle [breakingFeat, docsChange]).2 0
     (by decide) (Or.inl rfl)⟩

/-- C9: frame conditions of enhancement — `enhance_change_description`
preserves `commit_hash`, `commit_message`, `author`, `type`, `scope`,
`breaking` and `references` (only the description and the `ai_enhanced` flag
may change, and `breaking` is never altered); `generate_version_summary`
preserves `number`, `date`, `categories`, `breaking_changes`, `yanked` and
`compare_url` (only the summary may change). -/
theorem enhancement_frame (svc : AIService) (c : Change) (v : Version) :
    ((enhance_change_description svc c).commit_hash = c.commit_hash ∧
     (enhance_change_description svc c).commit_message = c.commit_message ∧
     (enhance_change_description svc c).author = c.author ∧
     (enhance_change_description svc c).type = c.type ∧
     (enhance_change_description svc c).scope = c.scope ∧
     (enhance_change_description svc c).breaking = c.breaking ∧
     (enhance_change_description svc c).references = c.references) ∧
    ((generate_version_summary svc v).number = v.number ∧
     (generate_version_summary svc v).date = v.date ∧
     (generate_version_summary svc v).categories = v.categories ∧
     (generate_version_summary svc v).breaking_changes = v.breaking_changes ∧
     (generate_version_summary svc v).yanked = v.yanked ∧
     (generate_version_summary svc v).compare_url = v.compare_url) := by
  constructor
  · by_cases h : svc.avail = false
    · simp [enhance_change_description, h]
    · rcases he : svc.enhanceResp c with e | oc
      · simp [enhance_change_description, h, he]
      · rcases oc with _ | content
        · simp [enhance_change_description, h, he]
        · by_cases hc2 : content.isEmpty = true <;>
            simp [enhance_change_description, h, he, hc2]
  · by_cases h : svc.avail = false
    · simp [generate_version_summary, h]
    · by_cases ht : (changesText v).isEmpty = true <;>
        simp [generate_version_summary, h, ht]

/-! ## Version assembly (`ChangelogService.generate_version`) -/

/-- The change list `generate_version` actually categorizes: the changes
created from the fetched commits, passed through the enhancement
collaborator when one is configured and reports itself available. -/
def effective_changes (svc : Option AIService) (commits : List GitCommit) :
    List Change :=
  match svc with
  | some s =>
    if s.avail then enhance_changes s (commits.map create_change_from_commit)
    else commits.map create_change_from_commit
  | none => commits.map create_change_from_commit

/-- The `Version(...)` construction of `generate_version`: categories from
the categorization dict in order, `breaking_changes` as the `any` over the
(possibly enhanced) change list. -/
def version_record (number date : Str) (d : List (Str × List Change))
    (chs : List Change) : Version :=
  { number := number, date := date,
    categories := d.map (fun kv => { name := kv.1, changes := kv.2 }),
    summary := none,
    breaking_changes := chs.any (fun c => c.breaking),
    yanked := false, compare_url := none }

/-- `ChangelogService.generate_version` over an already-fetched commit list
(the version number and the `datetime.now()` timestamp are parameters; the
git queries are external I/O).  Categorization may raise (see
`_categorize_changes`), hence the `Except`. -/
def generate_version (svc : Option AIService) (cats : List Str)
    (number date : Str) (commits : List GitCommit) : Except Unit Version :=
  match _categorize_changes cats (effective_changes svc commits) with
  | Except.error e => Except.error e
  | Except.ok d =>
    Except.ok (match svc with
      | some s =>
        if s.avail then
          generate_version_summary s
            (version_record number date d (effective_changes svc commits))
        else version_record number date d (effective_changes svc commits)
      | none => version_record number date d (effective_changes svc commits))

theorem summary_preserves_cats_breaking (svc : AIService) (v : Version) :
    (generate_version_summary svc v).categories = v.categories ∧
    (generate_version_summary svc v).breaking_changes = v.breaking_changes := by
  by_cases h : svc.avail = false
  · simp [generate_version_summary, h]
  · by_cases ht : (changesText v).isEmpty = true <;>
      simp [generate_version_summary, h, ht]

theorem option_summary_frame (svc : Option AIService) (v0 : Version) :
    ((match svc with
      | some s => if s.avail then generate_version_summary s v0 else v0
      | none => v0) : Version).categories = v0.categories ∧
    ((match svc with
      | some s => if s.avail then generate_version_summary s v0 else v0
      | none => v0) : Version).breaking_changes = v0.breaking_changes := by
  rcases svc with _ | s
  · exact ⟨rfl, rfl⟩
  · by_cases ha : s.avail = true
    · simp only [ha, if_true]
      exact summary_preserves_cats_breaking s v0
    · simp only [Bool.eq_false_iff.mpr ha]
      simp

/-! ### Claim C5 -/

/-- C5: any Version actually produced by `generate_version` has only
configured category names, no empty category, category names in the
configured first-occurrence order, each category's changes a sublist (hence
in original commit order) of the processed change list, and a
`breaking_changes` flag equal to the OR of the breaking flags of the changes
it contains. -/
theorem generate_version_invariants (svc : Option AIService) (cats : List Str)
    (number date : Str) (commits : List GitCommit) (v : Version)
    (h : generate_version svc cats number date commits = Except.ok v) :
    (∀ cat ∈ v.categories, cat.name ∈ cats ∧ cat.changes ≠ []) ∧
    List.Sublist (v.categories.map Category.name) (pyKeys cats) ∧
    (∀ cat ∈ v.categories,
      List.Sublist cat.changes (effective_changes svc commits)) ∧
    v.breaking_changes =
      ((v.categories.map Category.changes).flatten.any
        (fun c => c.breaking)) := by
  unfold generate_version at h
  split at h
  · exact absurd h (by simp)
  · next d hcat =>
    have hv := (Except.ok.injEq _ _).mp h
    have hfr := option_summary_frame svc
      (version_record number date d (effective_changes svc commits))
    rw [hv] at hfr
    have hvc : v.categories =
        d.map (fun kv => Category.mk kv.1 kv.2) := hfr.1
    have hvb : v.breaking_changes =
        (effective_changes svc commits).any (fun c => c.breaking) := hfr.2
    rw [categorize_changes_eq] at hcat
    by_cases hcond : ((effective_changes svc commits).any (fun c => c.breaking)
        && !(containsKey (initCategories cats) (("Changed").data))) = true
    · rw [if_pos hcond] at hcat
      exact absurd hcat (by simp)
    · rw [if_neg hcond] at hcat
      have hd := (Except.ok.injEq _ _).mp hcat
      rw [← hd] at hvc
      refine ⟨?_, ?_, ?_, ?_⟩
      · intro cat hcat2
        rw [hvc] at hcat2
        obtain ⟨kv, hkv, rfl⟩ := List.mem_map.mp hcat2
        have hkv1 := List.mem_of_mem_filter hkv
        obtain ⟨k, hk, rfl⟩ := List.mem_map.mp hkv1
        refine ⟨(pyKeys_mem cats k).mp hk, ?_⟩
        have hne := List.of_mem_filter hkv
        intro hnil
        rw [show (Category.mk (k, (effective_changes svc commits).filter
            (fun c => resolvedCategory c == k)).1
            (k, (effective_changes svc commits).filter
            (fun c => resolvedCategory c == k)).2).changes =
            (effective_changes svc commits).filter
              (fun c => resolvedCategory c == k) from rfl] at hnil
        rw [hnil] at hne
        simp at hne
      · rw [hvc, List.map_map]
        have hsub : List.Sublist
            (((pyKeys cats).map (fun k =>
              (k, (effective_changes svc commits).filter
                (fun c => resolvedCategory c == k)))).filter
              (fun kv => !kv.2.isEmpty))
            ((pyKeys cats).map (fun k =>
              (k, (effective_changes svc commits).filter
                (fun c => resolvedCategory c == k)))) :=
          List.filter_sublist _
        have hsub2 := hsub.map (Category.name ∘ (fun kv : Str × List Change =>
          Category.mk kv.1 kv.2))
        rw [List.map_map] at hsub2
        have hfun : ((Category.name ∘ fun kv : Str × List Change =>
            Category.mk kv.1 kv.2) ∘ fun k =>
              (k, (effective_changes svc commits).filter
                (fun c => resolvedCategory c == k))) = id :=
          funext fun k => rfl
        rw [hfun, List.map_id] at hsub2
        exact hsub2
      · intro cat hcat2
        rw [hvc] at hcat2
        obtain ⟨kv, hkv, rfl⟩ := List.mem_map.mp hcat2
        have hkv1 := List.mem_of_mem_filter hkv
        obtain ⟨k, hk, rfl⟩ := List.mem_map.mp hkv1
        exact List.filter_sublist _
      · rw [hvb, hvc]
        by_cases hany : ((effective_changes svc commits).any
            (fun c => c.breaking)) = true
        · rw [hany]
          obtain ⟨c, hcm, hcb⟩ := List.any_eq_true.mp hany
          have hck : containsKey (initCategories cats) (("Changed").data)
              = true := by
            by_contra hno
            exact hcond (by simp [hany, Bool.eq_false_iff.mpr hno])
          have hchmem : ("Changed").data ∈ pyKeys cats :=
            (pyKeys_mem _ _).mpr ((containsKey_initCategories _ _).mp hck)
          have hrc : resolvedCategory c = ("Changed").data := by
            simp [resolvedCategory, hcb]
          have hcf : c ∈ (effective_changes svc commits).filter
              (fun x => resolvedCategory x == ("Changed").data) :=
            List.mem_filter.mpr ⟨hcm, by simp [hrc]⟩
          have hpair : ((("Changed").data),
              (effective_changes svc commits).filter
                (fun x => resolvedCategory x == ("Changed").data)) ∈
              ((pyKeys cats).map (fun k =>
                (k, (effective_changes svc commits).filter
                  (fun c => resolvedCategory c == k)))).filter
                (fun kv => !kv.2.isEmpty) :=
            List.mem_filter.mpr ⟨List.mem_map.mpr ⟨_, hchmem, rfl⟩,
              by simpa using List.ne_nil_of_mem hcf⟩
          symm
          rw [List.any_eq_true]
          refine ⟨c, ?_, hcb⟩
          rw [List.map_map, List.mem_flatten]
          refine ⟨(effective_changes svc commits).filter
            (fun x => resolvedCategory x == ("Changed").data), ?_, hcf⟩
          exact List.mem_map.mpr ⟨_, hpair, rfl⟩
        · have hanyf := Bool.eq_false_iff.mpr hany
          rw [hanyf]
          symm
          rw [List.any_eq_false]
          intro c hcmem
          rw [List.map_map, List.mem_flatten] at hcmem
          obtain ⟨bucket, hbmem, hcmem2⟩ := hcmem
          obtain ⟨kv, hkv, rfl⟩ := List.mem_map.mp hbmem
          have hkv1 := List.mem_of_mem_filter hkv
          obtain ⟨k, hk, rfl⟩ := List.mem_map.mp hkv1
          have hcin : c ∈ effective_changes svc commits :=
            List.mem_of_mem_filter hcmem2
          have := (List.any_eq_false.mp hanyf) c hcin
          simpa using this

/-- The commits of the spec's end-to-end scenario. -/
def demoCommits : List GitCommit :=
  [{ hash := ("a1").data, message := ("feat: add X").data,
     author := ("dev").data, date := ("2024-03-01").data },
   { hash := ("a2").data, message := ("fix: resolve Y").data,
     author := ("dev").data, date := ("2024-03-01").data },
   { hash := ("a3").data, message := ("feat!: remove Z").data,
     author := ("dev").data, date := ("2024-03-01").data }]

/-- The configured categories of the end-to-end scenario. -/
def demoCats : List Str :=
  [("Added").data, ("Changed").data, ("Fixed").data]

/-- The version assembled in the end-to-end scenario (no AI service). -/
def demoVersion : Version :=
  (generate_version none demoCats (("1.0.0").data) (("2024-03-01").data)
    demoCommits).toOption.getD vOne

/-- C5 witness: the scenario run produces a version satisfying all the
assembler invariants. -/
theorem generate_version_invariants_witness :
    (∀ cat ∈ demoVersion.categories,
      cat.name ∈ demoCats ∧ cat.changes ≠ []) ∧
    List.Sublist (demoVersion.categories.map Category.name)
      (pyKeys demoCats) ∧
    (∀ cat ∈ demoVersion.categories,
      List.Sublist cat.changes (effective_changes none demoCommits)) ∧
    demoVersion.breaking_changes =
      ((demoVersion.categories.map Category.changes).flatten.any
        (fun c => c.breaking)) :=
  generate_version_invariants none demoCats (("1.0.0").data)
    (("2024-03-01").data) demoCommits demoVersion (by rfl)

/-! ## Git log parsing (`GitService.get_commits_since_tag`) -/

/-- Python's `str.split(sep)` for a one-character separator. -/
def splitOnChar (sep : Char) : Str → List Str
  | [] => [[]]
  | c :: rest =>
    if c == sep then [] :: splitOnChar sep rest
    else
      match splitOnChar sep rest with
      | [] => [[c]]
      | h :: t => (c :: h) :: t

/-- The `hash_, message, author, date_str = line.split("|")` unpacking: a
`ValueError` (modelled as `Except.error`) unless there are exactly four
fields. -/
def parseLogLine (line : Str) : Except Unit GitCommit :=
  match splitOnChar '|' line with
  | [h, m, a, d] =>
    Except.ok { hash := h, message := m, author := a, date := d }
  | _ => Except.error ()

/-- The `for line in output.split("\n")` loop of `get_commits_since_tag`:
empty lines are skipped, parsed commits are appended in order. -/
def commitsLoop (acc : List GitCommit) :
    List Str → Except Unit (List GitCommit)
  | [] => Except.ok acc
  | line :: rest =>
    if line.isEmpty then commitsLoop acc rest
    else
      match parseLogLine line with
      | Except.ok c => commitsLoop (acc ++ [c]) rest
      | Except.error e => Except.error e

/-- The pure core of `GitService.get_commits_since_tag`, applied to the
git-log output produced with format `%H|%s|%an|%aI` (the `%s` subject is a
single line by construction of the format and the line split). -/
def get_commits_from_log (output : Str) : Except Unit (List GitCommit) :=
  commitsLoop [] (splitOnChar '\n' output)

/-- The header bang flag of a message: the `!` marker when the header
matches, `false` otherwise. -/
def headerBang (m : Str) : Bool :=
  match matchConventionalCommit m with
  | some r => r.2.2.1
  | none => false

theorem splitOnChar_no_sep (sep : Char) (s : Str) :
    ∀ part ∈ splitOnChar sep s, sep ∉ part := by
  induction s with
  | nil =>
    intro part hp
    rw [splitOnChar] at hp
    obtain rfl := List.mem_singleton.mp hp
    simp
  | cons c rest ih =>
    intro part hp
    rw [splitOnChar] at hp
    by_cases hc : (c == sep) = true
    · rw [if_pos hc] at hp
      rcases List.mem_cons.mp hp with h1 | hp2
      · rw [h1]; simp
      · exact ih part hp2
    · rw [if_neg hc] at hp
      cases hsp : splitOnChar sep rest with
      | nil =>
        rw [hsp] at hp
        obtain rfl := List.mem_singleton.mp hp
        intro hm
        obtain rfl := List.mem_singleton.mp hm
        exact hc (by simp)
      | cons hh tt =>
        rw [hsp] at hp
        rcases List.mem_cons.mp hp with h1 | hp2
        · rw [h1]
          intro hm
          rcases List.mem_cons.mp hm with h2 | h2
          · exact hc (by simp [h2])
          · exact ih hh (by rw [hsp]; exact List.mem_cons_self _ _) h2
        · exact ih part (by rw [hsp]; exact List.mem_cons_of_mem _ hp2)

theorem splitOnChar_subset (sep : Char) (s : Str) :
    ∀ part ∈ splitOnChar sep s, ∀ a ∈ part, a ∈ s := by
  induction s with
  | nil =>
    intro part hp
    rw [splitOnChar] at hp
    obtain rfl := List.mem_singleton.mp hp
    simp
  | cons c rest ih =>
    intro part hp a ha
    rw [splitOnChar] at hp
    by_cases hc : (c == sep) = true
    · rw [if_pos hc] at hp
      rcases List.mem_cons.mp hp with h1 | hp2
      · rw [h1] at ha; simp at ha
      · exact List.mem_cons_of_mem _ (ih part hp2 a ha)
    · rw [if_neg hc] at hp
      cases hsp : splitOnChar sep rest with
      | nil =>
        rw [hsp] at hp
        obtain rfl := List.mem_singleton.mp hp
        obtain rfl := List.mem_singleton.mp ha
        exact List.mem_cons_self _ _
      | cons hh tt =>
        rw [hsp] at hp
        rcases List.mem_cons.mp hp with h1 | hp2
        · rw [h1] at ha
          rcases List.mem_cons.mp ha with h2 | h2
          · rw [h2]; exact List.mem_cons_self _ _
          · exact List.mem_cons_of_mem _
              (ih hh (by rw [hsp]; exact List.mem_cons_self _ _) a h2)
        · exact List.mem_cons_of_mem _
            (ih part (by rw [hsp]; exact List.mem_cons_of_mem _ hp2) a ha)

theorem parseLogLine_message (line : Str) (gc : GitCommit)
    (h : parseLogLine line = Except.ok gc) :
    gc.message ∈ splitOnChar '|' line := by
  unfold parseLogLine at h
  split at h
  · next h1 m a d heq =>
    have hv := (Except.ok.injEq _ _).mp h
    rw [heq, ← hv]
    simp
  · exact absurd h (by simp)

theorem commitsLoop_mem (lines : List Str) :
    ∀ (acc commits : List GitCommit),
      commitsLoop acc lines = Except.ok commits →
        ∀ gc ∈ commits,
          gc ∈ acc ∨ ∃ line ∈ lines, parseLogLine line = Except.ok gc := by
  induction lines with
  | nil =>
    intro acc commits h gc hgc
    rw [commitsLoop] at h
    obtain rfl := (Except.ok.injEq _ _).mp h
    exact Or.inl hgc
  | cons line rest ih =>
    intro acc commits h gc hgc
    rw [commitsLoop] at h
    by_cases hl : line.isEmpty = true
    · rw [if_pos hl] at h
      rcases ih acc commits h gc hgc with h1 | ⟨l2, hl2, hp⟩
      · exact Or.inl h1
      · exact Or.inr ⟨l2, List.mem_cons_of_mem _ hl2, hp⟩
    · rw [if_neg hl] at h
      split at h
      · next c hpl =>
        rcases ih (acc ++ [c]) commits h gc hgc with h1 | ⟨l2, hl2, hp⟩
        · rcases List.mem_append.mp h1 with h2 | h2
          · exact Or.inl h2
          · obtain rfl := List.mem_singleton.mp h2
            exact Or.inr ⟨line, List.mem_cons_self _ _, hpl⟩
        · exact Or.inr ⟨l2, List.mem_cons_of_mem _ hl2, hp⟩
      · next e hpl =>
        exact absurd h (by simp)

theorem parse_breaking_of_no_newline (m : Str) (hnl : ('\n') ∉ m) :
    (parse_conventional_commit m).2.2.2 = headerBang m := by
  unfold parse_conventional_commit headerBang
  cases hm : matchConventionalCommit m with
  | none => rfl
  | some r =>
    obtain ⟨t, sc, bang, desc, body⟩ := r
    cases body with
    | none => simp
    | some b =>
      exfalso
      have hs := matchConventionalCommit_sound m t sc bang desc (some b) hm
      obtain ⟨tail, htf, hpt, heqs⟩ := hs.2.2.2.2
      have htail : tail = '\n' :: '\n' :: b := parseTail_some_body tail b hpt
      apply hnl
      rw [heqs, htail]
      simp

/-! ### Claim C10 -/

/-- C10: every commit the git-log parsing produces has a message with no
newline (the `%s` subject is one field of one line), so parsing such a
message can never set `breaking` through the body `BREAKING CHANGE:` marker:
its breaking flag equals the header bang flag alone. -/
theorem log_commits_single_line (output : Str) (commits : List GitCommit)
    (h : get_commits_from_log output = Except.ok commits) :
    ∀ gc ∈ commits, (('\n') ∉ gc.message) ∧
      (parse_conventional_commit gc.message).2.2.2 = headerBang gc.message := by
  intro gc hgc
  have hm := commitsLoop_mem (splitOnChar '\n' output) [] commits h gc hgc
  rcases hm with h1 | ⟨line, hline, hpl⟩
  · exact absurd h1 (by simp)
  · have hmsg := parseLogLine_message line gc hpl
    have hnl : ('\n') ∉ gc.message := by
      intro hin
      exact splitOnChar_no_sep '\n' output line hline
        (splitOnChar_subset '|' line gc.message hmsg '\n' hin)
    exact ⟨hnl, parse_breaking_of_no_newline gc.message hnl⟩

/-- The commit parsed from the demo git-log line. -/
def demoLogCommit : GitCommit :=
  { hash := ("a1").data, message := ("feat!: x").data,
    author := ("alice").data, date := ("2024-01-01").data }

/-- C10 witness: on a concrete one-line git-log output, the produced commit
message has no newline and its breaking flag comes from the header bang. -/
theorem log_commits_single_line_witness :
    (('\n') ∉ demoLogCommit.message) ∧
      (parse_conventional_commit demoLogCommit.message).2.2.2 =
        headerBang demoLogCommit.message :=
  log_commits_single_line (("a1|feat!: x|alice|2024-01-01").data)
    [demoLogCommit] (by rfl) demoLogCommit (by simp)

end Autoscribe
